import Mathlib

/-!
Verification of the promptifier template expander (src/main.rs).

The Rust program is shallowly embedded:
* Rust `String` / `&str` values are `List Char` (Unicode scalar values);
  byte positions are computed with `Char.utf8Size`, mirroring
  `str::find` / `str::len`, which are byte-based in Rust.
* Rust `f64` is modelled by `F64`: an exact rational together with the
  special values `inf`, `neginf` and `nan`.  Finite arithmetic is exact
  (no rounding); the comparison and special-value rules follow IEEE-754,
  which is what the claims under scrutiny depend on.
* `rand::ThreadRng` is modelled by a stream `rng : Nat → ℚ` of draws
  (`rng.gen::<f64>()` returns the next element of the stream); a counter
  threaded through evaluation records how many draws were consumed.
* Rust's stable `sort_by` / `sort_by_key` is modelled by Mathlib's stable
  `List.insertionSort` with the corresponding comparator.
* The scanner loop `prompt.find(&['|','{','}'])` + slicing is embedded as
  structural recursion over the character list, accumulating the literal
  segment `acc` since the last control character; the byte index update
  `global_index += index` adds exactly the byte length of that segment
  (and, as in the source, nothing for the consumed control character).
-/

/-- Model of Rust `f64`: exact rationals plus IEEE special values. -/
inductive F64 where
  | finite (q : ℚ)
  | inf
  | neginf
  | nan
deriving DecidableEq

/-- IEEE addition (exact on finite values). -/
def F64.add : F64 → F64 → F64
  | .nan, _ => .nan
  | _, .nan => .nan
  | .inf, .neginf => .nan
  | .neginf, .inf => .nan
  | .inf, _ => .inf
  | _, .inf => .inf
  | .neginf, _ => .neginf
  | _, .neginf => .neginf
  | .finite a, .finite b => .finite (a + b)

/-- IEEE negation. -/
def F64.neg : F64 → F64
  | .finite q => .finite (-q)
  | .inf => .neginf
  | .neginf => .inf
  | .nan => .nan

/-- IEEE subtraction, `a - b = a + (-b)`. -/
def F64.sub (a b : F64) : F64 := a.add b.neg

/-- IEEE multiplication (exact on finite values). -/
def F64.mul : F64 → F64 → F64
  | .nan, _ => .nan
  | _, .nan => .nan
  | .inf, .inf => .inf
  | .inf, .neginf => .neginf
  | .neginf, .inf => .neginf
  | .neginf, .neginf => .inf
  | .inf, .finite q => if q = 0 then .nan else if 0 < q then .inf else .neginf
  | .finite q, .inf => if q = 0 then .nan else if 0 < q then .inf else .neginf
  | .neginf, .finite q => if q = 0 then .nan else if 0 < q then .neginf else .inf
  | .finite q, .neginf => if q = 0 then .nan else if 0 < q then .neginf else .inf
  | .finite a, .finite b => .finite (a * b)

/-- IEEE `<=` as a boolean: any comparison with `nan` is false. -/
def F64.ble : F64 → F64 → Bool
  | .nan, _ => false
  | _, .nan => false
  | .neginf, _ => true
  | _, .neginf => false
  | _, .inf => true
  | .inf, _ => false
  | .finite a, .finite b => decide (a ≤ b)

/-- `w` is a negative number (`w < 0`); `nan` is not negative. -/
def F64.isNeg : F64 → Bool
  | .finite q => decide (q < 0)
  | .neginf => true
  | _ => false

/-- `w` is `nan`. -/
def F64.isNan : F64 → Bool
  | .nan => true
  | _ => false

/-- Byte length of a string in UTF-8, as Rust `str::len`. -/
def utf8Len (s : List Char) : Nat := (s.map Char.utf8Size).sum

/- ## Model of Rust `f64::from_str` (`weight_text.parse::<f64>()`).

Rust accepts an optional sign, then case-insensitively `inf`, `infinity`
or `nan`, or a decimal number `Digit+ | Digit+ '.' Digit* | '.' Digit+`
(equivalently: digits with at most one point and at least one digit)
with an optional exponent `('e'|'E') Sign? Digit+`.  Finite values are
kept exact here instead of being rounded to the nearest double. -/

/-- Split a list at the first character satisfying `p` (the separator is
dropped), or `none` when no character satisfies `p`. -/
def splitFirst (p : Char → Bool) : List Char → Option (List Char × List Char)
  | [] => none
  | c :: cs =>
    if p c then some ([], cs)
    else (splitFirst p cs).map (fun x => (c :: x.1, x.2))

/-- Numeric value of a digit string. -/
def digitsToNat (l : List Char) : Nat :=
  l.foldl (fun a c => a * 10 + (c.toNat - '0'.toNat)) 0

/-- Mantissa: `Digit+`, `Digit+ '.' Digit*` or `'.' Digit+`. -/
def parseMantissa (s : List Char) : Option ℚ :=
  match splitFirst (fun c => c = '.') s with
  | none =>
    if s ≠ [] ∧ s.all Char.isDigit then some (digitsToNat s) else none
  | some (ip, fp) =>
    if (ip ≠ [] ∨ fp ≠ []) ∧ ip.all Char.isDigit ∧ fp.all Char.isDigit then
      some ((digitsToNat ip : ℚ) + (digitsToNat fp : ℚ) / (10 : ℚ) ^ fp.length)
    else none

/-- Exponent part after `e`/`E`: optional sign and `Digit+`. -/
def parseExp (s : List Char) : Option ℤ :=
  let signed : Bool × List Char :=
    match s with
    | '+' :: r => (false, r)
    | '-' :: r => (true, r)
    | r => (false, r)
  if signed.2 ≠ [] ∧ signed.2.all Char.isDigit then
    some (if signed.1 then -(digitsToNat signed.2 : ℤ) else (digitsToNat signed.2 : ℤ))
  else none

/-- Unsigned number: mantissa with optional exponent. -/
def parseNumber (s : List Char) : Option ℚ :=
  match splitFirst (fun c => c = 'e' ∨ c = 'E') s with
  | none => parseMantissa s
  | some (m, e) =>
    match parseMantissa m, parseExp e with
    | some mq, some ev => some (mq * (10 : ℚ) ^ ev)
    | _, _ => none

/-- Model of Rust `f64::from_str`. -/
def parseF64 (s : List Char) : Option F64 :=
  let signed : Bool × List Char :=
    match s with
    | '+' :: r => (false, r)
    | '-' :: r => (true, r)
    | r => (false, r)
  let low := signed.2.map Char.toLower
  if low = ['i', 'n', 'f'] ∨ low = ['i', 'n', 'f', 'i', 'n', 'i', 't', 'y'] then
    some (if signed.1 then F64.neginf else F64.inf)
  else if low = ['n', 'a', 'n'] then some F64.nan
  else
    match parseNumber signed.2 with
    | none => none
    | some q => some (F64.finite (if signed.1 then -q else q))

/- ## Data model (structs `Choice`, `Frame`, `Stack` of src/main.rs) -/

/-- One alternative of a choice group (`struct Choice`). -/
structure Choice where
  text : List Char
  weight : F64
deriving DecidableEq

/-- `Choice::new()`: empty text, weight `1.0`. -/
def Choice.new : Choice := ⟨[], F64.finite 1⟩

/-- One open choice group (`struct Frame`): opening-brace index as
recorded by the scanner, completed choices, and the open choice. -/
structure Frame where
  start_index : Nat
  choices : List Choice
  top : Choice
deriving DecidableEq

/-- `Frame::new(start_index)`. -/
def Frame.new (start_index : Nat) : Frame := ⟨start_index, [], Choice.new⟩

/-- `Frame::push`: the open choice is completed and replaced. -/
def Frame.push (f : Frame) (choice : Choice) : Frame :=
  ⟨f.start_index, f.choices ++ [f.top], choice⟩

/-- `struct Stack`: pushed frames (head = innermost) and the top frame. -/
structure Stack where
  stack : List Frame
  top : Frame
deriving DecidableEq

/-- `Stack::new()`: only the implicit top-level frame. -/
def Stack.new : Stack := ⟨[], Frame.new 0⟩

/-- `Stack::push(start_index)`. -/
def Stack.push (s : Stack) (start_index : Nat) : Stack :=
  ⟨s.top :: s.stack, Frame.new start_index⟩

/-- `Stack::pop()`: returns the closed frame (the old top) and the stack
whose top is the parent frame, or `none` if no frame was pushed. -/
def Stack.pop : Stack → Option (Frame × Stack)
  | ⟨[], _⟩ => none
  | ⟨f :: rest, t⟩ => some (t, ⟨rest, f⟩)

/-- `enum ChoiceGuidance`. -/
inductive ChoiceGuidance where
  | Shortest
  | Longest
  | LeastLikely
  | MostLikely
deriving DecidableEq

/-- `struct GenerationOptions`. -/
structure GenerationOptions where
  choice_guidance : Option ChoiceGuidance
  ignore_invalid_weight_literals : Bool

/- ## Error types -/

/-- `enum ParseWeightErrorKind` (the `ParseFloatError` payload is opaque). -/
inductive ParseWeightErrorKind where
  | FloatParse
  | NegativeWeight
deriving DecidableEq

/-- `struct ParseWeightError`. -/
structure ParseWeightError where
  specifier : List Char
  index : Nat
  parse_error : ParseWeightErrorKind
deriving DecidableEq

/-- `enum ParseError`; each payload `Nat` is the reported offset. -/
inductive ParseError where
  | UnexpectedClosingBrace (i : Nat)
  | UnclosedBrace (i : Nat)
  | InvalidWeightSpecifier (i : Nat) (err : ParseWeightError)
deriving DecidableEq

/- ## Weight-specifier parsing (`parse_weight`) -/

/-- `str::rsplit_once(":")`: split at the last colon, or `none`. -/
def rsplitOnceColon : List Char → Option (List Char × List Char)
  | [] => none
  | c :: cs =>
    match rsplitOnceColon cs with
    | some x => some (c :: x.1, x.2)
    | none => if c = ':' then some ([], cs) else none

/-- `fn parse_weight`: split the segment at its last colon; a parsed
weight `>= 0.0` is accepted, a parsed weight failing that test is a
`NegativeWeight` error regardless of the tolerant flag, and an
unparsable suffix is tolerated (whole segment, weight `1.0`) only when
`ignore_invalid_weight_literals` is set. -/
def parse_weight (maybe_weighted : List Char) (ignore_invalid_weight_literals : Bool) :
    Except ParseWeightError (List Char × F64) :=
  match rsplitOnceColon maybe_weighted with
  | none => .ok (maybe_weighted, F64.finite 1)
  | some (text, weight_text) =>
    match parseF64 weight_text with
    | some weight =>
      if F64.ble (F64.finite 0) weight then .ok (text, weight)
      else .error ⟨weight_text, utf8Len text + 1, .NegativeWeight⟩
    | none =>
      if ignore_invalid_weight_literals then .ok (maybe_weighted, F64.finite 1)
      else .error ⟨weight_text, utf8Len text + 1, .FloatParse⟩

/- ## Selection (`Frame::choose`) -/

/-- The walk of the weighted-random branch of `Frame::choose`: return the
first choice whose weight the decremented index does not exceed, else
fall through to the open choice. -/
def chooseLoop (top : Choice) : List Choice → F64 → Choice
  | [], _ => top
  | c :: rest, wi =>
    if F64.ble wi c.weight then c else chooseLoop top rest (F64.sub wi c.weight)

/-- Last element of a list, with a default for the (unreachable) empty
case — `options.pop().unwrap()` in the source. -/
def lastD {α : Type} (d : α) : List α → α
  | [] => d
  | [a] => a
  | _ :: b :: xs => lastD d (b :: xs)

/-- Comparator of `sort_by_key(|c| c.text.len())` (byte length). -/
def lenLe (a b : Choice) : Prop := utf8Len a.text ≤ utf8Len b.text

instance : DecidableRel lenLe := fun _ _ => Nat.decLe _ _

/-- Comparator of `sort_by(partial_cmp .. unwrap_or(Equal))`: `nan`
compares as `Equal` (hence not `Greater`), otherwise IEEE `<=`. -/
def weightLe (a b : Choice) : Prop :=
  (a.weight.isNan || b.weight.isNan || F64.ble a.weight b.weight) = true

instance : DecidableRel weightLe := fun _ _ => instDecidableEqBool _ _

/-- `Frame::choose`: weighted-random walk when no guidance is given;
otherwise a stable sort (by byte length or by weight) followed by taking
the last (`pop`) or first (`swap_remove(0)`) element.  `r` is the value
drawn by `rng.gen::<f64>()` (unused when guidance is given). -/
def Frame.choose (f : Frame) (r : ℚ) : Option ChoiceGuidance → Choice
  | none =>
    let weight_sum :=
      F64.add (f.choices.foldl (fun a c => F64.add a c.weight) (F64.finite 0)) f.top.weight
    chooseLoop f.top f.choices (F64.mul (F64.finite r) weight_sum)
  | some g =>
    let options := f.choices ++ [f.top]
    let sorted :=
      match g with
      | .Longest | .Shortest => List.insertionSort lenLe options
      | .MostLikely | .LeastLikely => List.insertionSort weightLe options
    match g with
    | .Longest | .MostLikely => lastD Choice.new sorted
    | .Shortest | .LeastLikely => sorted.headD Choice.new

/-- One frame resolution: weighted-random guidance consumes one draw of
the stream, deterministic guidance consumes none. -/
def chooseDraw (f : Frame) (g : Option ChoiceGuidance) (rng : Nat → ℚ) (k : Nat) :
    Choice × Nat :=
  match g with
  | none => (Frame.choose f (rng k) none, k + 1)
  | some gg => (Frame.choose f 0 (some gg), k)

/- ## The scanner / evaluator (`fn generate`) -/

/-- The closure `parse_weight_and_apply`: parse the segment's weight,
append the text to the innermost open choice and overwrite its weight;
a weight error becomes `InvalidWeightSpecifier` at `gi + err.index`. -/
def parseWeightAndApply (opts : GenerationOptions) (text : List Char) (st : Stack)
    (gi : Nat) : Except ParseError Stack :=
  match parse_weight text opts.ignore_invalid_weight_literals with
  | .error err => .error (.InvalidWeightSpecifier (gi + err.index) err)
  | .ok tw =>
    .ok { st with top := { st.top with top := ⟨st.top.top.text ++ tw.1, tw.2⟩ } }

/-- Append already-resolved text to the innermost open choice
(`stack.top.top.text.push_str(..)`). -/
def stPushText (st : Stack) (t : List Char) : Stack :=
  { st with top := { st.top with top := ⟨st.top.top.text ++ t, st.top.top.weight⟩ } }

/-- The loop of `fn generate`.  `acc` is the literal segment scanned since
the last control character (`pre`); `gi` is `global_index`, which is
advanced by the byte length of `pre` when a control character is found —
and, exactly as in the source, never for the control character itself;
`k` counts consumed random draws. -/
def genLoop (opts : GenerationOptions) (rng : Nat → ℚ) :
    List Char → List Char → Stack → Nat → Nat → Except ParseError (List Char)
  | [], acc, st, gi, k =>
    match parseWeightAndApply opts acc st gi with
    | .error e => .error e
    | .ok st =>
      if st.stack.isEmpty then .ok (chooseDraw st.top opts.choice_guidance rng k).1.text
      else .error (.UnclosedBrace st.top.start_index)
  | c :: cs, acc, st, gi, k =>
    if c = '|' then
      match parseWeightAndApply opts acc st (gi + utf8Len acc) with
      | .error e => .error e
      | .ok st => genLoop opts rng cs [] ⟨st.stack, st.top.push Choice.new⟩ (gi + utf8Len acc) k
    else if c = '{' then
      genLoop opts rng cs [] (Stack.push (stPushText st acc) (gi + utf8Len acc)) (gi + utf8Len acc) k
    else if c = '}' then
      match parseWeightAndApply opts acc st (gi + utf8Len acc) with
      | .error e => .error e
      | .ok st =>
        match Stack.pop st with
        | none => .error (.UnexpectedClosingBrace (gi + utf8Len acc))
        | some fs =>
          let ck := chooseDraw fs.1 opts.choice_guidance rng k
          genLoop opts rng cs [] (stPushText fs.2 ck.1.text) (gi + utf8Len acc) ck.2
    else genLoop opts rng cs (acc ++ [c]) st gi k

/-- `fn generate`: run the scanner from the empty state. -/
def generate (prompt : List Char) (opts : GenerationOptions) (rng : Nat → ℚ) :
    Except ParseError (List Char) :=
  genLoop opts rng prompt [] Stack.new 0 0

/-! ## Helper lemmas -/

theorem lastD_cons_ne {α : Type} (d a : α) {l : List α} (h : l ≠ []) :
    lastD d (a :: l) = lastD d l := by
  cases l with
  | nil => exact absurd rfl h
  | cons b xs => rfl

theorem lastD_irrel {α : Type} (d1 d2 : α) : ∀ {l : List α}, l ≠ [] →
    lastD d1 l = lastD d2 l
  | [], h => absurd rfl h
  | [a], _ => rfl
  | a :: b :: xs, _ => by
    rw [lastD_cons_ne d1 a (List.cons_ne_nil b xs), lastD_cons_ne d2 a (List.cons_ne_nil b xs)]
    exact lastD_irrel d1 d2 (List.cons_ne_nil b xs)

theorem lastD_mem {α : Type} (d : α) : ∀ {l : List α}, l ≠ [] → lastD d l ∈ l
  | [], h => absurd rfl h
  | [a], _ => by simp [lastD]
  | a :: b :: xs, _ => by
    rw [lastD_cons_ne d a (List.cons_ne_nil b xs)]
    exact List.mem_cons_of_mem a (lastD_mem d (List.cons_ne_nil b xs))

theorem headD_mem {α : Type} (d : α) {l : List α} (h : l ≠ []) : l.headD d ∈ l := by
  cases l with
  | nil => exact absurd rfl h
  | cons a xs => simp [List.headD]

theorem orderedInsert_ne_nil {α : Type} (r : α → α → Prop) [DecidableRel r] (x : α)
    (s : List α) : List.orderedInsert r x s ≠ [] := by
  cases s with
  | nil => simp [List.orderedInsert]
  | cons y ys =>
    simp only [List.orderedInsert]
    split <;> simp

theorem insertionSort_ne_nil {α : Type} (r : α → α → Prop) [DecidableRel r] {l : List α}
    (h : l ≠ []) : List.insertionSort r l ≠ [] := by
  cases l with
  | nil => exact absurd rfl h
  | cons x xs =>
    simpa only [List.insertionSort] using orderedInsert_ne_nil r x (List.insertionSort r xs)

theorem lastD_orderedInsert_all {α : Type} (r : α → α → Prop) [DecidableRel r] (d x : α) :
    ∀ s : List α, (∀ y ∈ s, ¬ r x y) → lastD d (List.orderedInsert r x s) = x
  | [], _ => rfl
  | y :: ys, h => by
    rw [List.orderedInsert, if_neg (h y (List.mem_cons_self y ys)),
      lastD_cons_ne d y (orderedInsert_ne_nil r x ys)]
    exact lastD_orderedInsert_all r d x ys (fun z hz => h z (List.mem_cons_of_mem y hz))

theorem lastD_orderedInsert_ex {α : Type} (r : α → α → Prop) [DecidableRel r] (d x : α) :
    ∀ s : List α, (∃ y ∈ s, r x y) → lastD d (List.orderedInsert r x s) = lastD d s
  | [], h => absurd h (by simp)
  | y :: ys, h => by
    by_cases hxy : r x y
    · rw [List.orderedInsert, if_pos hxy, lastD_cons_ne d x (List.cons_ne_nil y ys)]
    · obtain ⟨z, hz, hrz⟩ := h
      have hzys : z ∈ ys := by
        rcases List.mem_cons.mp hz with h1 | h1
        · exact absurd (h1 ▸ hrz) hxy
        · exact h1
      have hys : ys ≠ [] := List.ne_nil_of_mem hzys
      rw [List.orderedInsert, if_neg hxy, lastD_cons_ne d y (orderedInsert_ne_nil r x ys),
        lastD_orderedInsert_ex r d x ys ⟨z, hzys, hrz⟩, lastD_cons_ne d y hys]

/-- The head of the stable insertion sort is the first occurrence of a
minimal-key element: everything before it in the original list is
strictly larger, everything after it is at least as large. -/
theorem sortHead_decomp {α : Type} (r : α → α → Prop) [DecidableRel r] (key : α → Nat)
    (hr : ∀ a b, r a b ↔ key a ≤ key b) (d : α) :
    ∀ l : List α, l ≠ [] →
      ∃ l1 l2, l = l1 ++ ((List.insertionSort r l).headD d) :: l2 ∧
        (∀ c ∈ l1, key ((List.insertionSort r l).headD d) < key c) ∧
        (∀ c ∈ l2, key ((List.insertionSort r l).headD d) ≤ key c) := by
  intro l
  induction l with
  | nil => intro h; exact absurd rfl h
  | cons x xs ih =>
    intro _
    by_cases hxs' : xs = []
    · subst hxs'
      refine ⟨[], [], ?_, by simp, by simp⟩
      simp [List.insertionSort, List.orderedInsert, List.headD]
    · obtain ⟨m1, m2, hdec, hlt, hle⟩ := ih hxs'
      set H := (List.insertionSort r xs).headD d with hH
      have hall : ∀ c ∈ xs, key H ≤ key c := by
        intro c hc
        rw [hdec] at hc
        rcases List.mem_append.mp hc with h1 | h1
        · exact Nat.le_of_lt (hlt c h1)
        · rcases List.mem_cons.mp h1 with h2 | h2
          · exact h2 ▸ Nat.le_refl _
          · exact hle c h2
      obtain ⟨s0, S, hS⟩ : ∃ s0 S, List.insertionSort r xs = s0 :: S := by
        cases hSS : List.insertionSort r xs with
        | nil => exact absurd hSS (insertionSort_ne_nil r hxs')
        | cons a b => exact ⟨a, b, rfl⟩
      have hs0 : s0 = H := by rw [hH, hS]; rfl
      by_cases hrx : r x s0
      · have hhead : ((List.insertionSort r (x :: xs)).headD d) = x := by
          rw [List.insertionSort, hS, List.orderedInsert, if_pos hrx]; rfl
        refine ⟨[], xs, by rw [hhead]; rfl, by simp, ?_⟩
        intro c hc
        rw [hhead]
        exact Nat.le_trans ((hr x s0).mp hrx) (hs0 ▸ hall c hc)
      · have hhead : ((List.insertionSort r (x :: xs)).headD d) = H := by
          rw [List.insertionSort, hS, List.orderedInsert, if_neg hrx, ← hs0]; rfl
        have hxH : key H < key x := by
          have := (fun h => hrx ((hr x s0).mpr h))
          rw [hs0] at this
          exact Nat.lt_of_not_le fun hcon => this hcon
        refine ⟨x :: m1, m2, ?_, ?_, ?_⟩
        · rw [hhead, List.cons_append, ← hdec]
        · intro c hc
          rw [hhead]
          rcases List.mem_cons.mp hc with h1 | h1
          · exact h1 ▸ hxH
          · exact hlt c h1
        · intro c hc
          rw [hhead]
          exact hle c hc

/-- The last element of the stable insertion sort is the last occurrence
of a maximal-key element: everything before it in the original list is
at most as large, everything after it is strictly smaller. -/
theorem sortLast_decomp {α : Type} (r : α → α → Prop) [DecidableRel r] (key : α → Nat)
    (hr : ∀ a b, r a b ↔ key a ≤ key b) (d : α) :
    ∀ l : List α, l ≠ [] →
      ∃ l1 l2, l = l1 ++ (lastD d (List.insertionSort r l)) :: l2 ∧
        (∀ c ∈ l1, key c ≤ key (lastD d (List.insertionSort r l))) ∧
        (∀ c ∈ l2, key c < key (lastD d (List.insertionSort r l))) := by
  intro l
  induction l with
  | nil => intro h; exact absurd rfl h
  | cons x xs ih =>
    intro _
    by_cases hxs' : xs = []
    · subst hxs'
      refine ⟨[], [], ?_, by simp, by simp⟩
      simp [List.insertionSort, List.orderedInsert, lastD]
    · obtain ⟨m1, m2, hdec, hle, hlt⟩ := ih hxs'
      set G := lastD d (List.insertionSort r xs) with hG
      have hall : ∀ c ∈ xs, key c ≤ key G := by
        intro c hc
        rw [hdec] at hc
        rcases List.mem_append.mp hc with h1 | h1
        · exact hle c h1
        · rcases List.mem_cons.mp h1 with h2 | h2
          · exact h2 ▸ Nat.le_refl _
          · exact Nat.le_of_lt (hlt c h2)
      by_cases hx : ∀ y ∈ List.insertionSort r xs, ¬ r x y
      · have hlast : lastD d (List.insertionSort r (x :: xs)) = x := by
          rw [List.insertionSort]
          exact lastD_orderedInsert_all r d x _ hx
        refine ⟨[], xs, by rw [hlast]; rfl, by simp, ?_⟩
        intro c hc
        rw [hlast]
        have hnr : ¬ r x c := hx c ((List.mem_insertionSort r).mpr hc)
        exact Nat.lt_of_not_le fun hcon => hnr ((hr x c).mpr hcon)
      · push_neg at hx
        obtain ⟨z, hz, hrz⟩ := hx
        have hlast : lastD d (List.insertionSort r (x :: xs)) = G := by
          rw [List.insertionSort]
          exact lastD_orderedInsert_ex r d x _ ⟨z, hz, hrz⟩
        have hxG : key x ≤ key G := by
          have hz' : z ∈ xs := (List.mem_insertionSort r).mp hz
          exact Nat.le_trans ((hr x z).mp hrz) (hall z hz')
        refine ⟨x :: m1, m2, ?_, ?_, ?_⟩
        · rw [hlast, List.cons_append, ← hdec]
        · intro c hc
          rw [hlast]
          rcases List.mem_cons.mp hc with h1 | h1
          · exact h1 ▸ hxG
          · exact hle c h1
        · intro c hc
          rw [hlast]
          exact hlt c hc

theorem chooseLoop_mem (top : Choice) : ∀ (l : List Choice) (wi : F64),
    chooseLoop top l wi = top ∨ chooseLoop top l wi ∈ l
  | [], _ => Or.inl rfl
  | c :: rest, wi => by
    rw [chooseLoop]
    split
    · exact Or.inr (List.mem_cons_self c rest)
    · rcases chooseLoop_mem top rest (F64.sub wi c.weight) with h | h
      · exact Or.inl h
      · exact Or.inr (List.mem_cons_of_mem c h)

/-- Every selection mode returns one of the frame's alternatives. -/
theorem choose_mem (f : Frame) (r : ℚ) (g : Option ChoiceGuidance) :
    Frame.choose f r g ∈ f.choices ++ [f.top] := by
  have hne : f.choices ++ [f.top] ≠ [] := by simp
  cases g with
  | none =>
    rw [Frame.choose]
    rcases chooseLoop_mem f.top f.choices _ with h | h
    · rw [h]; simp
    · exact List.mem_append_left _ h
  | some gg =>
    cases gg with
    | Shortest =>
      exact (List.mem_insertionSort lenLe).mp
        (headD_mem Choice.new (insertionSort_ne_nil lenLe hne))
    | LeastLikely =>
      exact (List.mem_insertionSort weightLe).mp
        (headD_mem Choice.new (insertionSort_ne_nil weightLe hne))
    | Longest =>
      exact (List.mem_insertionSort lenLe).mp
        (lastD_mem Choice.new (insertionSort_ne_nil lenLe hne))
    | MostLikely =>
      exact (List.mem_insertionSort weightLe).mp
        (lastD_mem Choice.new (insertionSort_ne_nil weightLe hne))

/-- With deterministic guidance the evaluator never consults the random
stream (nor the draw counter). -/
theorem genLoop_guided_rng (g : ChoiceGuidance) (e : Bool) (r1 r2 : Nat → ℚ) :
    ∀ (p acc : List Char) (st : Stack) (gi k1 k2 : Nat),
      genLoop ⟨some g, e⟩ r1 p acc st gi k1 = genLoop ⟨some g, e⟩ r2 p acc st gi k2 := by
  intro p
  induction p with
  | nil =>
    intro acc st gi k1 k2
    rw [genLoop, genLoop]
    cases parseWeightAndApply ⟨some g, e⟩ acc st gi with
    | error e' => rfl
    | ok st' => rfl
  | cons c cs ih =>
    intro acc st gi k1 k2
    rw [genLoop, genLoop]
    by_cases h1 : c = '|'
    · rw [if_pos h1, if_pos h1]
      cases parseWeightAndApply ⟨some g, e⟩ acc st (gi + utf8Len acc) with
      | error e' => rfl
      | ok st' => exact ih [] _ _ k1 k2
    · rw [if_neg h1, if_neg h1]
      by_cases h2 : c = '{'
      · rw [if_pos h2, if_pos h2]
        exact ih [] _ _ k1 k2
      · rw [if_neg h2, if_neg h2]
        by_cases h3 : c = '}'
        · rw [if_pos h3, if_pos h3]
          cases parseWeightAndApply ⟨some g, e⟩ acc st (gi + utf8Len acc) with
          | error e' => rfl
          | ok st' =>
            dsimp only
            cases Stack.pop st' with
            | none => rfl
            | some fs =>
              dsimp only [chooseDraw]
              exact ih [] _ _ k1 k2
        · rw [if_neg h3, if_neg h3]
          exact ih (acc ++ [c]) _ _ k1 k2

theorem rsplitOnceColon_of_not_mem : ∀ {s : List Char}, ':' ∉ s →
    rsplitOnceColon s = none
  | [], _ => rfl
  | c :: cs, h => by
    rw [rsplitOnceColon, rsplitOnceColon_of_not_mem (fun hc => h (List.mem_cons_of_mem c hc))]
    rw [if_neg (fun hc => h (by rw [hc]; exact List.mem_cons_self ':' cs))]

theorem rsplitOnceColon_last : ∀ (pre : List Char) {suf : List Char}, ':' ∉ suf →
    rsplitOnceColon (pre ++ ':' :: suf) = some (pre, suf)
  | [], suf, h => by
    rw [List.nil_append, rsplitOnceColon, rsplitOnceColon_of_not_mem h, if_pos rfl]
  | c :: pre, suf, h => by
    rw [List.cons_append, rsplitOnceColon, rsplitOnceColon_last pre h]

theorem ble_zero_of_isNeg {w : F64} (h : F64.isNeg w = true) :
    F64.ble (F64.finite 0) w = false := by
  cases w with
  | finite q =>
    have hq : q < 0 := of_decide_eq_true h
    simpa [F64.ble] using not_le.mpr hq
  | inf => exact absurd h (by simp [F64.isNeg])
  | neginf => rfl
  | nan => exact absurd h (by simp [F64.isNeg])

theorem foldl_weight_zero : ∀ (l : List Choice), (∀ c ∈ l, c.weight = F64.finite 0) →
    l.foldl (fun a c => F64.add a c.weight) (F64.finite 0) = F64.finite 0
  | [], _ => rfl
  | c :: cs, h => by
    have hc : c.weight = F64.finite 0 := h c (List.mem_cons_self c cs)
    have : F64.add (F64.finite 0) c.weight = F64.finite 0 := by
      rw [hc, F64.add, add_zero]
    rw [List.foldl_cons, this]
    exact foldl_weight_zero cs (fun z hz => h z (List.mem_cons_of_mem c hz))

/-! ## Claims -/

/-- C1: REFUTED (code bug).  The claim says every offset carried by a
`ParseError` from `generate` is a character offset, correct under
multi-byte input.  On the template `"é}"` the unmatched closing brace is
at character offset 1, but the code reports its UTF-8 byte offset 2
(`str::find` and `global_index` are byte-based), even though the error
message itself says "at char". -/
theorem C1_error_offsets_are_byte_offsets :
    generate ['é', '}'] ⟨none, false⟩ (fun _ => 0) = .error (.UnexpectedClosingBrace 2)
    ∧ List.findIdx (fun c => c = '}') ['é', '}'] = 1 :=
  ⟨rfl, rfl⟩

/-- C2: REFUTED (code bug).  The claim says `UnexpectedClosingBrace`
carries exactly the offset of the offending `}` and `UnclosedBrace`
exactly the offset of the innermost unmatched `{`.  The scanner advances
`global_index` only by the length of the literal segment before each
control character and never accounts for the control character it
consumes, so every offset after the first control character lags behind.
In `"a|b}"` the `}` sits at offset 3 but the code reports 2; in `"a|{b"`
the `{` sits at offset 2 but the code reports 1. -/
theorem C2_brace_error_offsets_are_lagged :
    generate ['a', '|', 'b', '}'] ⟨none, false⟩ (fun _ => 0)
        = .error (.UnexpectedClosingBrace 2)
    ∧ List.findIdx (fun c => c = '}') ['a', '|', 'b', '}'] = 3
    ∧ generate ['a', '|', '{', 'b'] ⟨none, false⟩ (fun _ => 0) = .error (.UnclosedBrace 1)
    ∧ List.findIdx (fun c => c = '{') ['a', '|', '{', 'b'] = 2 :=
  ⟨rfl, rfl, rfl, rfl⟩

/-- C3: CONFIRMED.  For a segment whose suffix after the last colon
parses as a negative number, `parse_weight` fails with the
negative-weight error for both values of the tolerant flag; a segment
whose suffix merely fails to parse succeeds under the flag, returning
the entire original segment with weight `1.0`. -/
theorem C3_negative_weight_error_and_tolerant_fallback (s text wtext : List Char)
    (w : F64) (tol : Bool) (hsplit : rsplitOnceColon s = some (text, wtext)) :
    (parseF64 wtext = some w → F64.isNeg w = true →
      parse_weight s tol = .error ⟨wtext, utf8Len text + 1, .NegativeWeight⟩)
    ∧ (parseF64 wtext = none → tol = true → parse_weight s tol = .ok (s, F64.finite 1)) := by
  constructor
  · intro hp hneg
    simp [parse_weight, hsplit, hp, ble_zero_of_isNeg hneg]
  · intro hp htol
    simp [parse_weight, hsplit, hp, htol]

theorem C3_witness :
    parse_weight ['a', ':', '-', '1'] true
        = .error ⟨['-', '1'], 2, .NegativeWeight⟩
    ∧ parse_weight ['a', ':', '-', '1'] false
        = .error ⟨['-', '1'], 2, .NegativeWeight⟩
    ∧ parse_weight ['a', ':', 'x'] true = .ok (['a', ':', 'x'], F64.finite 1) :=
  ⟨(C3_negative_weight_error_and_tolerant_fallback ['a', ':', '-', '1'] ['a'] ['-', '1']
      (F64.finite (-1)) true rfl).1 rfl rfl,
   (C3_negative_weight_error_and_tolerant_fallback ['a', ':', '-', '1'] ['a'] ['-', '1']
      (F64.finite (-1)) false rfl).1 rfl rfl,
   (C3_negative_weight_error_and_tolerant_fallback ['a', ':', 'x'] ['a'] ['x']
      (F64.finite 0) true rfl).2 rfl rfl⟩

/-- C5: CONFIRMED.  The weight separator is the last colon of the
segment (text before it may contain colons), and a colon-free segment is
returned whole with weight exactly `1.0`. -/
theorem C5_last_colon_separator (tol : Bool) (s pre suf : List Char) :
    (':' ∉ s → parse_weight s tol = .ok (s, F64.finite 1))
    ∧ (s = pre ++ ':' :: suf → ':' ∉ suf →
        rsplitOnceColon s = some (pre, suf)
        ∧ ∀ w, parseF64 suf = some w → F64.ble (F64.finite 0) w = true →
            parse_weight s tol = .ok (pre, w)) := by
  constructor
  · intro h
    simp [parse_weight, rsplitOnceColon_of_not_mem h]
  · intro hs hnc
    have hsp : rsplitOnceColon s = some (pre, suf) := by
      rw [hs]; exact rsplitOnceColon_last pre hnc
    refine ⟨hsp, ?_⟩
    intro w hw hble
    simp [parse_weight, hsp, hw, hble]

theorem C5_witness :
    rsplitOnceColon ['a', ':', 'b', ':', '2'] = some (['a', ':', 'b'], ['2'])
    ∧ parse_weight ['a', ':', 'b', ':', '2'] false = .ok (['a', ':', 'b'], F64.finite 2)
    ∧ parse_weight ['a', 'b'] false = .ok (['a', 'b'], F64.finite 1) := by
  have h := (C5_last_colon_separator false ['a', ':', 'b', ':', '2'] ['a', ':', 'b'] ['2']).2
    rfl (by decide)
  exact ⟨h.1, h.2 (F64.finite 2) rfl rfl,
    (C5_last_colon_separator false ['a', 'b'] [] []).1 (by decide)⟩

/-- C8 counterexample: the claim says only finite reals are accepted as
weights and that `"inf"` with the tolerant flag off yields a
weight-parse error; in fact `"inf"` parses to `f64` infinity, passes the
`weight >= 0.0` test and is accepted as a weight. -/
theorem C8_counterexample :
    parse_weight ['x', ':', 'i', 'n', 'f'] false = .ok (['x'], F64.inf) := rfl

/-- C8 as amended: the suffix after the last colon is accepted as a
weight exactly when it parses as an `f64` value satisfying
`weight >= 0.0` — which includes positive infinity, so finiteness is not
required; a suffix that fails to parse at all still yields, with the
tolerant flag off, the float-parse error at the stated offset. -/
theorem C8_nonnegative_parsed_weights_accepted (tol : Bool) (s text wtext : List Char)
    (hsplit : rsplitOnceColon s = some (text, wtext)) :
    (∀ w, parseF64 wtext = some w → F64.ble (F64.finite 0) w = true →
        parse_weight s tol = .ok (text, w))
    ∧ (parseF64 wtext = none → tol = false →
        parse_weight s tol = .error ⟨wtext, utf8Len text + 1, .FloatParse⟩) := by
  constructor
  · intro w hw hble
    simp [parse_weight, hsplit, hw, hble]
  · intro hw htol
    simp [parse_weight, hsplit, hw, htol]

theorem C8_witness :
    parse_weight ['y', ':', 'i', 'n', 'f'] true = .ok (['y'], F64.inf)
    ∧ parse_weight ['y', ':', 'q'] false = .error ⟨['q'], 2, .FloatParse⟩ :=
  ⟨((C8_nonnegative_parsed_weights_accepted true ['y', ':', 'i', 'n', 'f'] ['y']
      ['i', 'n', 'f'] rfl).1 F64.inf rfl rfl),
   ((C8_nonnegative_parsed_weights_accepted false ['y', ':', 'q'] ['y'] ['q'] rfl).2 rfl rfl)⟩

/-- C10: CONFIRMED.  A suffix that parses as `NaN` fails the
`weight >= 0.0` test (IEEE comparisons with `NaN` are false), so
`parse_weight` reports the negative-weight error for both values of the
tolerant flag — the tolerant fallback only covers parse failures. -/
theorem C10_nan_weight_negative_error (s text wtext : List Char) (tol : Bool)
    (hsplit : rsplitOnceColon s = some (text, wtext))
    (hparse : parseF64 wtext = some F64.nan) :
    parse_weight s tol = .error ⟨wtext, utf8Len text + 1, .NegativeWeight⟩ := by
  simp [parse_weight, hsplit, hparse, F64.ble]

theorem C10_witness :
    parse_weight ['x', ':', 'N', 'a', 'N'] true
        = .error ⟨['N', 'a', 'N'], 2, .NegativeWeight⟩
    ∧ parse_weight ['x', ':', 'N', 'a', 'N'] false
        = .error ⟨['N', 'a', 'N'], 2, .NegativeWeight⟩ :=
  ⟨C10_nan_weight_negative_error ['x', ':', 'N', 'a', 'N'] ['x'] ['N', 'a', 'N'] true rfl rfl,
   C10_nan_weight_negative_error ['x', ':', 'N', 'a', 'N'] ['x'] ['N', 'a', 'N'] false rfl rfl⟩

/-- C4: CONFIRMED.  `Frame::choose` returns an element of the frame's
alternatives (completed choices followed by the open choice) in every
selection mode and for every draw, and expanding `"a{b|c}d"` in
weighted-random mode yields `"abd"` or `"acd"` and nothing else, for
every random stream. -/
theorem C4_selection_returns_one_of_the_alternatives (f : Frame) (r : ℚ)
    (g : Option ChoiceGuidance) (rng : Nat → ℚ) :
    Frame.choose f r g ∈ f.choices ++ [f.top]
    ∧ (generate ['a', '{', 'b', '|', 'c', '}', 'd'] ⟨none, false⟩ rng = .ok ['a', 'b', 'd']
      ∨ generate ['a', '{', 'b', '|', 'c', '}', 'd'] ⟨none, false⟩ rng = .ok ['a', 'c', 'd']) := by
  refine ⟨choose_mem f r g, ?_⟩
  have h0 : generate ['a', '{', 'b', '|', 'c', '}', 'd'] ⟨none, false⟩ rng =
      .ok ('a' :: ((chooseLoop ⟨['c'], F64.finite 1⟩ [⟨['b'], F64.finite 1⟩]
        (F64.mul (F64.finite (rng 0))
          (F64.add (F64.add (F64.finite 0) (F64.finite 1)) (F64.finite 1)))).text
        ++ ['d'])) := rfl
  cases hble : F64.ble (F64.mul (F64.finite (rng 0))
      (F64.add (F64.add (F64.finite 0) (F64.finite 1)) (F64.finite 1))) (F64.finite 1) with
  | true =>
    left
    rw [h0]
    dsimp only [chooseLoop]
    rw [hble]
    simp
  | false =>
    right
    rw [h0]
    dsimp only [chooseLoop]
    rw [hble]
    simp [chooseLoop]

/-- C6 counterexample: the claim says Shortest selects a choice of
minimal character count.  With alternatives `"ab"` (2 bytes, 2 chars)
and `"é"` (2 bytes, 1 char) the byte lengths tie, the stable sort keeps
the original order, and Shortest returns `"ab"` — whose character count
2 exceeds the 1 of `"é"`. -/
theorem C6_counterexample :
    (Frame.choose ⟨0, [⟨['a', 'b'], F64.finite 1⟩], ⟨['é'], F64.finite 1⟩⟩ 0
        (some .Shortest)).text = ['a', 'b']
    ∧ ['a', 'b'].length = 2 ∧ ['é'].length = 1 := by
  refine ⟨by decide, rfl, rfl⟩

/-- C6 as amended: Shortest / Longest order by UTF-8 byte length (Rust
`str::len`), not character count; among equal-byte-length choices
Shortest returns the first occurrence in the original list and Longest
the last: everything before the Shortest pick is strictly longer and
everything after it at least as long (in bytes), dually for Longest. -/
theorem C6_byte_length_selection (f : Frame) (r : ℚ) :
    (∃ l1 l2, f.choices ++ [f.top] = l1 ++ Frame.choose f r (some .Shortest) :: l2
      ∧ (∀ c ∈ l1, utf8Len (Frame.choose f r (some .Shortest)).text < utf8Len c.text)
      ∧ (∀ c ∈ l2, utf8Len (Frame.choose f r (some .Shortest)).text ≤ utf8Len c.text))
    ∧ (∃ l1 l2, f.choices ++ [f.top] = l1 ++ Frame.choose f r (some .Longest) :: l2
      ∧ (∀ c ∈ l1, utf8Len c.text ≤ utf8Len (Frame.choose f r (some .Longest)).text)
      ∧ (∀ c ∈ l2, utf8Len c.text < utf8Len (Frame.choose f r (some .Longest)).text)) := by
  constructor
  · have h := sortHead_decomp lenLe (fun c => utf8Len c.text) (fun a b => Iff.rfl)
      Choice.new (f.choices ++ [f.top]) (by simp)
    exact h
  · have h := sortLast_decomp lenLe (fun c => utf8Len c.text) (fun a b => Iff.rfl)
      Choice.new (f.choices ++ [f.top]) (by simp)
    exact h

/-- C7 counterexample: the claim says that with all weights zero every
choice remains selectable (uniform selection).  In fact the scaled draw
is `r * 0 = 0 ≤ 0`, so the walk stops at the first choice for every
draw in `[0,1)`: the second alternative is never selected. -/
theorem C7_counterexample :
    ¬ ∃ r : ℚ, 0 ≤ r ∧ r < 1 ∧
      Frame.choose ⟨0, [⟨['a'], F64.finite 0⟩], ⟨['b'], F64.finite 0⟩⟩ r none
        = ⟨['b'], F64.finite 0⟩ := by
  rintro ⟨r, -, -, h⟩
  have h1 : Frame.choose ⟨0, [⟨['a'], F64.finite 0⟩], ⟨['b'], F64.finite 0⟩⟩ r none
      = chooseLoop ⟨['b'], F64.finite 0⟩ [⟨['a'], F64.finite 0⟩]
        (F64.mul (F64.finite r)
          (F64.add (F64.add (F64.finite 0) (F64.finite 0)) (F64.finite 0))) := rfl
  rw [h1] at h
  have h2 : F64.add (F64.add (F64.finite 0) (F64.finite 0)) (F64.finite 0)
      = F64.finite 0 := by
    rw [F64.add, F64.add, add_zero, add_zero]
  rw [h2] at h
  have h3 : F64.mul (F64.finite r) (F64.finite 0) = F64.finite 0 := by
    rw [F64.mul, mul_zero]
  rw [h3] at h
  dsimp only [chooseLoop] at h
  rw [if_pos (by rfl : F64.ble (F64.finite 0) (F64.finite 0) = true)] at h
  exact absurd (congrArg Choice.text h) (by decide)

/-- C7 as amended: with every weight equal to zero (weight sum zero) the
weighted-random selection is total (no panic, no division — the code
never divides) but it is not uniform: for every draw it returns the
first alternative (the first completed choice, or the open choice when
none was completed). -/
theorem C7_zero_weight_sum_first_choice (f : Frame) (r : ℚ)
    (hc : ∀ c ∈ f.choices, c.weight = F64.finite 0)
    (ht : f.top.weight = F64.finite 0) :
    Frame.choose f r none = f.choices.headD f.top := by
  have h1 : Frame.choose f r none
      = chooseLoop f.top f.choices
        (F64.mul (F64.finite r)
          (F64.add (f.choices.foldl (fun a c => F64.add a c.weight) (F64.finite 0))
            f.top.weight)) := rfl
  rw [h1, foldl_weight_zero f.choices hc, ht]
  have h2 : F64.add (F64.finite 0) (F64.finite 0) = F64.finite 0 := by
    rw [F64.add, add_zero]
  have h3 : F64.mul (F64.finite r) (F64.finite 0) = F64.finite 0 := by
    rw [F64.mul, mul_zero]
  rw [h2, h3]
  cases hcc : f.choices with
  | nil => rfl
  | cons c cs =>
    dsimp only [chooseLoop]
    have hcw : c.weight = F64.finite 0 := hc c (by rw [hcc]; exact List.mem_cons_self c cs)
    rw [hcw, if_pos (by rfl : F64.ble (F64.finite 0) (F64.finite 0) = true)]
    rfl

theorem C7_witness :
    Frame.choose ⟨0, [⟨['a'], F64.finite 0⟩], ⟨['b'], F64.finite 0⟩⟩ (1/2) none
      = ⟨['a'], F64.finite 0⟩ :=
  C7_zero_weight_sum_first_choice ⟨0, [⟨['a'], F64.finite 0⟩], ⟨['b'], F64.finite 0⟩⟩ (1/2)
    (by intro c hcm; rw [List.mem_singleton.mp hcm]) rfl

/-- C9: CONFIRMED.  With any deterministic guidance mode (Shortest,
Longest, MostLikely, LeastLikely) `generate` never consults the random
stream: its result is the same for every pair of streams, hence a pure
function of the template and the options alone, and two runs with the
same template and mode produce identical output. -/
theorem C9_guided_modes_consult_no_randomness (p : List Char) (g : ChoiceGuidance)
    (e : Bool) (r1 r2 : Nat → ℚ) :
    generate p ⟨some g, e⟩ r1 = generate p ⟨some g, e⟩ r2 :=
  genLoop_guided_rng g e r1 r2 p [] Stack.new 0 0 0
